import Mathlib

/-! ## Definitions -/

/-- A pooled dynamic texture, identified by its identity `id` and its
bucket line count `lines` (TexturePool.ts `TextureObject`). -/
structure Surface where
  id : Nat
  lines : Nat
deriving DecidableEq, Repr

/-- The mutable state of a `TexturePool`: the bucket map `pools`
(association list keyed by line count), the in-use set (duplicate-free
list in insertion order, mirroring a JS `Set`), and a counter supplying
fresh identities for newly constructed textures. -/
structure PoolState where
  buckets : List (Nat × List Surface)
  inUse : List Surface
  nextId : Nat
deriving DecidableEq, Repr

/-- `MAX_LINES` constant of TexturePool.ts. -/
def MAX_LINES : Nat := 10

/-- `MIN_LINES` constant of TexturePool.ts. -/
def MIN_LINES : Nat := 1

/-- `this.pools.get(k)` on the bucket map. -/
def findBucket (k : Nat) : List (Nat × List Surface) → Option (List Surface)
  | [] => none
  | e :: rest => if e.1 = k then some e.2 else findBucket k rest

/-- `this.pools.set(k, l)` when the key `k` is already present: replace
the bucket stored under `k`. -/
def setBucket (bs : List (Nat × List Surface)) (k : Nat) (l : List Surface) :
    List (Nat × List Surface) :=
  bs.map fun e => if e.1 = k then (k, l) else e

/-- JS `Set.prototype.add`: append if absent. -/
def setAdd (l : List Surface) (s : Surface) : List Surface :=
  if s ∈ l then l else l ++ [s]

/-- JS `Set.prototype.delete`: remove the element (a JS set holds no
duplicates, so deletion is a filter). -/
def setDel (l : List Surface) (s : Surface) : List Surface :=
  l.filter fun x => decide (x ≠ s)

/-- Errors `acquire` can raise: the explicit out-of-range `throw`, and
the TypeError that `this.pools.get(lines)!.find(...)` produces when the
bucket key is absent (possible after `cleanup`). -/
inductive AcquireError where
  | outOfRange
  | missingBucket
deriving DecidableEq, Repr

/-- `TexturePool.acquire` (TexturePool.ts lines 58-89): validate the
range, reuse a free texture from the bucket if one exists, otherwise
construct a fresh texture, append it to the bucket and mark it in use. -/
def acquire (st : PoolState) (lines : Nat) :
    Except AcquireError (Surface × PoolState) :=
  if lines < MIN_LINES ∨ lines > MAX_LINES then
    .error .outOfRange
  else
    match findBucket lines st.buckets with
    | none => .error .missingBucket
    | some pool =>
      match pool.find? (fun s => decide (s ∉ st.inUse)) with
      | some s => .ok (s, { st with inUse := setAdd st.inUse s })
      | none =>
        let s : Surface := ⟨st.nextId, lines⟩
        .ok (s, { buckets := setBucket st.buckets lines (pool ++ [s])
                  inUse := setAdd st.inUse s
                  nextId := st.nextId + 1 })

/-- `TexturePool.release` (TexturePool.ts lines 91-95): `if (textureObj)
this.inUse.delete(textureObj)`; `none` models a null argument. -/
def release (st : PoolState) : Option Surface → PoolState
  | none => st
  | some s => { st with inUse := setDel st.inUse s }

/-- One step of `cleanup`'s rebuild loop: ensure a bucket exists for
`s.lines`, then push `s` onto it. -/
def bucketPush (bs : List (Nat × List Surface)) (s : Surface) :
    List (Nat × List Surface) :=
  match findBucket s.lines bs with
  | some l => setBucket bs s.lines (l ++ [s])
  | none => bs ++ [(s.lines, [s])]

/-- `TexturePool.cleanup` (TexturePool.ts lines 107-125): dispose every
free texture, then rebuild the bucket map from the in-use textures
alone (disposal itself has no effect on the modelled state). -/
def cleanup (st : PoolState) : PoolState :=
  { buckets := st.inUse.foldl bucketPush []
    inUse := st.inUse
    nextId := st.nextId }

/-- `TexturePool.getTotalActiveTextures`: `inUse.size`. -/
def getTotalActiveTextures (st : PoolState) : Nat :=
  st.inUse.length

/-- `TexturePool.getTotalPoolSize`: sum of bucket lengths. -/
def getTotalPoolSize (st : PoolState) : Nat :=
  (st.buckets.map fun e => e.2.length).sum

/-- `TexturePool.getPoolSize`: bucket length with the range guard
(`pools.get(lines)?.length || 0`). -/
def getPoolSize (st : PoolState) (lines : Nat) : Nat :=
  if lines < MIN_LINES ∨ lines > MAX_LINES then 0
  else ((findBucket lines st.buckets).getD []).length

/-- `TexturePool.getActiveTextures`: in-use textures of one bucket. -/
def getActiveTextures (st : PoolState) (lines : Nat) : Nat :=
  if lines < MIN_LINES ∨ lines > MAX_LINES then 0
  else (st.inUse.filter fun s => decide (s.lines = lines)).length

/-- The state built by the constructor with the default
`initialPoolSize = 1` (as used by `new TexturePool(scene, lineHeight)` in
BlueSkyVis.tsx): one texture per bucket, for line counts 1..10. -/
def initState : PoolState :=
  { buckets := (List.range MAX_LINES).map fun j => (j + 1, [⟨j, j + 1⟩])
    inUse := []
    nextId := MAX_LINES }

/-- An operation on the pool, as invoked by client code. -/
inductive PoolOp where
  | acquireOp (lines : Nat)
  | releaseOp (s? : Option Surface)
  | cleanupOp
deriving DecidableEq, Repr

/-- Run one operation; a thrown `acquire` leaves the state unchanged
(the throw happens before any mutation in the source). -/
def runOp (st : PoolState) : PoolOp → PoolState
  | .acquireOp lines =>
    match acquire st lines with
    | .ok (_, st') => st'
    | .error _ => st
  | .releaseOp s? => release st s?
  | .cleanupOp => cleanup st

/-- Run a sequence of pool operations from a state. -/
def runOps (st : PoolState) (ops : List PoolOp) : PoolState :=
  ops.foldl runOp st

/-- All surfaces currently held in any bucket. -/
def allSurf (st : PoolState) : List Surface :=
  (st.buckets.map Prod.snd).flatten

/-- Number of free surfaces: bucket members not in the in-use set,
summed over buckets. -/
def freeCount (st : PoolState) : Nat :=
  (st.buckets.map fun e =>
    (e.2.filter fun s => decide (s ∉ st.inUse)).length).sum

/-- The bucket keys, in map order. -/
def keysOK (bs : List (Nat × List Surface)) : Prop :=
  (bs.map Prod.fst).Nodup

/-- Every surface is stored in the bucket matching its line count. -/
def linesOK (bs : List (Nat × List Surface)) : Prop :=
  ∀ p ∈ bs, ∀ s ∈ p.2, s.lines = p.1

/-- All surfaces held in a bucket map. -/
def surfB (bs : List (Nat × List Surface)) : List Surface :=
  (bs.map Prod.snd).flatten

/-- Pool well-formedness: the in-use set is duplicate-free, the bucket
contents are globally duplicate-free, every in-use surface lives in some
bucket, bucket keys are unique, every surface sits in the bucket of its
own line count, and all stored identities are below the fresh counter. -/
def WF (st : PoolState) : Prop :=
  st.inUse.Nodup ∧ (allSurf st).Nodup ∧ (∀ s ∈ st.inUse, s ∈ allSurf st) ∧
    keysOK st.buckets ∧ linesOK st.buckets ∧ ∀ s ∈ allSurf st, s.id < st.nextId

/-- The pool-exclusivity property of the specification: every in-use
surface is in some bucket, no in-use surface is also free (a bucket
member not in the in-use set), and the active count plus the free count
equals the total pool size. -/
def exclusivityOK (st : PoolState) : Prop :=
  (∀ s ∈ st.inUse, s ∈ allSurf st) ∧
  (∀ s ∈ st.inUse, s ∉ ((allSurf st).filter fun x => decide (x ∉ st.inUse))) ∧
  getTotalActiveTextures st + freeCount st = getTotalPoolSize st

/-- Discriminator: did `acquire` succeed? -/
def acquireOk (r : Except AcquireError (Surface × PoolState)) : Bool :=
  match r with
  | .ok _ => true
  | .error _ => false

/-- The error component of an `acquire` result, if any. -/
def errOf (r : Except AcquireError (Surface × PoolState)) : Option AcquireError :=
  match r with
  | .error e => some e
  | .ok _ => none

/-- The line count of the surface an `acquire` returned (0 on error). -/
def linesOfAcquire (r : Except AcquireError (Surface × PoolState)) : Nat :=
  match r with
  | .ok (s, _) => s.lines
  | .error _ => 0

/-- Accumulator loop for `splitSp`. -/
def splitSpAux : List Char → List Char → List String
  | [], acc => [String.mk acc.reverse]
  | c :: cs, acc =>
    if c = ' ' then String.mk acc.reverse :: splitSpAux cs []
    else splitSpAux cs (c :: acc)

/-- JS `text.split(' ')`: split on every single space character; the
result is never empty, and the empty string yields `[""]`. -/
def splitSp (s : String) : List String :=
  splitSpAux s.data []

/-- The `for` loop of `wrapText`：`currentLine` is the line being built,
the list argument holds the remaining words; the final `currentLine` is
always pushed. -/
def wrapLoop (measure : String → ℚ) (maxWidth : ℚ) :
    String → List String → List String
  | currentLine, [] => [currentLine]
  | currentLine, word :: rest =>
    if measure (currentLine ++ " " ++ word) < maxWidth then
      wrapLoop measure maxWidth (currentLine ++ " " ++ word) rest
    else
      currentLine :: wrapLoop measure maxWidth word rest

/-- `TextWrapper.wrapText(text, maxWidth)`, with the canvas
`measureText(...).width` oracle passed explicitly. -/
def wrapText (measure : String → ℚ) (text : String) (maxWidth : ℚ) : List String :=
  wrapLoop measure maxWidth ((splitSp text).headD "") (splitSp text).tail

/-- The truncation step of `createMessage`:
`if (lines.length > 10) lines = lines.slice(0, 10)`. -/
def truncateLines (lines : List String) : List String :=
  if lines.length > 10 then lines.take 10 else lines

/-- One step of the greedy fold, used by `greedyWrapSpec`. -/
def greedySpecStep (measure : String → ℚ) (maxWidth : ℚ)
    (st : List String × String) (tok : String) : List String × String :=
  let tentative := st.2 ++ " " ++ tok
  if measure tentative < maxWidth then (st.1, tentative)
  else (st.1 ++ [st.2], tok)

/-- Modelled from the spec's wording of the greedy line-fill algorithm
(spec §4.1): start the first line as the first token; for each further
token tentatively append it space-separated, commit the append exactly
when the measured tentative width is strictly below the budget,
otherwise close the current line and start a new one with the token;
always commit the final in-progress line. -/
def greedyWrapSpec (measure : String → ℚ) (text : String) (maxWidth : ℚ) :
    List String :=
  match splitSp text with
  | [] => [""]
  | w :: ws =>
    ((ws.foldl (greedySpecStep measure maxWidth) ([], w)).1) ++
      [(ws.foldl (greedySpecStep measure maxWidth) ([], w)).2]

/-- A measurement oracle proportional to the token count: each token is
100 units wide, so with a 250-unit budget exactly two tokens fit on a
line. -/
def twoTokenMeasure (s : String) : ℚ :=
  ((100 * (splitSp s).length : Nat) : ℚ)

/-- Discriminator for the out-of-range error branch of `acquire`. -/
def isOutOfRangeErr (r : Except AcquireError (Surface × PoolState)) : Bool :=
  match r with
  | .error .outOfRange => true
  | .error .missingBucket => false
  | .ok _ => false

/-- A live message object: the mesh state that the advance loop touches
(`position.z` and the injected `renderOrder` field), the borrowed
surface, and the spawn-time constants `speed`, `special`,
`arbitraryOrder`. -/
structure Msg where
  z : ℚ
  renderOrder : ℚ
  surface : Surface
  speed : ℚ
  special : Bool
  arbitraryOrder : ℚ
deriving DecidableEq, Repr

/-- The exit threshold of the per-frame check `position.z > 10`. -/
def EXIT_Z : ℚ := 10

/-- The per-object mutation of one advance step:
`position.z += 100 * speed * globalSpeed * dt`, reset `renderOrder` to
`arbitraryOrder`, then override it with `position.z + 10000` when the
object is special. -/
def advanceMsg (globalSpeed dt : ℚ) (m : Msg) : Msg :=
  let z := m.z + 100 * m.speed * globalSpeed * dt
  { m with
    z := z
    renderOrder := if m.special then z + 10000 else m.arbitraryOrder }

/-- The advance loop over the live list, iterated from the last index
down to 0 (a `foldr`, so the element at the highest index is processed
first, exactly as the reversed `for` loop with `splice` does): each
message is advanced; if its new `z` exceeds the threshold the mesh is
disposed (collected in the third component), its surface is released
to the pool, and it is removed from the live list; otherwise it is kept.
Returns (live list, pool, disposed meshes). -/
def advancePass (globalSpeed dt : ℚ) (msgs : List Msg) (pool : PoolState) :
    List Msg × PoolState × List Msg :=
  msgs.foldr
    (fun m acc =>
      let m1 := advanceMsg globalSpeed dt m
      if m1.z > EXIT_Z then
        (acc.1, release acc.2.1 (some m1.surface), m1 :: acc.2.2)
      else
        (m1 :: acc.1, acc.2.1, acc.2.2))
    ([], pool, [])

/-- An ordinary message that exits in one step (speed 1, dt 1). -/
def msgExit : Msg :=
  { z := 0, renderOrder := 0, surface := ⟨0, 1⟩, speed := 1,
    special := false, arbitraryOrder := 7 }

/-- A focal message that stays live (speed 0). -/
def msgStay : Msg :=
  { z := 0, renderOrder := 0, surface := ⟨1, 1⟩, speed := 0,
    special := true, arbitraryOrder := 3 }

/-- A pool in which `msgExit`'s surface is checked out. -/
def poolExit : PoolState :=
  { buckets := [(1, [⟨0, 1⟩])], inUse := [⟨0, 1⟩], nextId := 1 }

/-- The drop decision of `createMessage` in my-react-app BlueSkyVis.tsx
(lines 212-222), with the two random draws `r1` (placement, so that
`wall = Math.floor(r1 * (4 + 1*specialFrequency))`) and `r2` (discard)
as explicit inputs: first remap `wall > 3` to `-1`, then drop iff
`wall !== -1 && discardFraction > 0 && r2 < discardFraction`.
Returns `true` when the message is dropped. -/
def createMsgDropApp (specialFrequency discardFraction r1 r2 : ℚ) : Bool :=
  let wall0 : ℤ := ⌊r1 * (4 + 1 * specialFrequency)⌋
  let wall : ℤ := if wall0 > 3 then -1 else wall0
  decide (wall ≠ -1 ∧ discardFraction > 0 ∧ r2 < discardFraction)

/-- The drop decision of `BlueSkyViz.createMessage` in
bluesky-viz-webpack index.ts (lines 158-168):
`wall = Math.floor(r1 * 4.04)`, and the discard check
`wall !== -1 && discardFrac && r2 < discardFrac` runs BEFORE the
`wall > 3 → -1` focal remap.  Returns `true` when dropped. -/
def createMsgDropPack (discardFrac r1 r2 : ℚ) : Bool :=
  let wall : ℤ := ⌊r1 * 4.04⌋
  decide (wall ≠ -1 ∧ discardFrac ≠ 0 ∧ r2 < discardFrac)

/-- Focal speed draw: `0.005 + 0.5 * (0.08 + r * 0.12)` with
`r = Math.random()`. -/
def focalSpeed (r : ℚ) : ℚ := 0.005 + 0.5 * (0.08 + r * 0.12)

/-- Wall speed draw: `0.05 + r * 0.005`. -/
def wallSpeed (r : ℚ) : ℚ := 0.05 + r * 0.005

/-! ## Theorems -/

theorem findBucket_mem {k : Nat} {bs : List (Nat × List Surface)} {l : List Surface}
    (h : findBucket k bs = some l) : (k, l) ∈ bs := by
  induction bs with
  | nil => simp [findBucket] at h
  | cons e rest ih =>
    obtain ⟨a, b⟩ := e
    by_cases he : a = k
    · subst he
      simp [findBucket] at h
      subst h
      exact List.mem_cons.mpr (Or.inl rfl)
    · simp only [findBucket, if_neg he] at h
      exact List.mem_cons_of_mem _ (ih h)

theorem findBucket_none {k : Nat} {bs : List (Nat × List Surface)}
    (h : findBucket k bs = none) : k ∉ bs.map Prod.fst := by
  induction bs with
  | nil => simp
  | cons e rest ih =>
    by_cases he : e.1 = k
    · simp [findBucket, he] at h
    · simp only [findBucket, if_neg he] at h
      simp only [List.map_cons, List.mem_cons]
      rintro (h1 | h2)
      · exact he h1.symm
      · exact ih h h2

theorem allSurf_def (st : PoolState) : allSurf st = surfB st.buckets := rfl

theorem setBucket_map_fst (bs : List (Nat × List Surface)) (k : Nat) (l : List Surface) :
    (setBucket bs k l).map Prod.fst = bs.map Prod.fst := by
  unfold setBucket
  rw [List.map_map]
  apply List.map_congr_left
  intro e _
  by_cases he : e.1 = k
  · simp [he]
  · simp [he]

theorem setBucket_not_mem {bs : List (Nat × List Surface)} {k : Nat}
    (h : k ∉ bs.map Prod.fst) (l : List Surface) : setBucket bs k l = bs := by
  have hcong : ∀ e ∈ bs, (if e.1 = k then (k, l) else e) = e := by
    intro e he
    rw [if_neg]
    intro hek
    apply h
    rw [← hek]
    exact List.mem_map_of_mem Prod.fst he
  calc setBucket bs k l = bs.map id := List.map_congr_left hcong
    _ = bs := List.map_id bs

theorem surfB_cons (e : Nat × List Surface) (rest : List (Nat × List Surface)) :
    surfB (e :: rest) = e.2 ++ surfB rest := by
  simp [surfB]

theorem surfB_setBucket {bs : List (Nat × List Surface)} {k : Nat} {pool : List Surface}
    (hk : keysOK bs) (h : findBucket k bs = some pool) (x : Surface) :
    List.Perm (surfB (setBucket bs k (pool ++ [x]))) (x :: surfB bs) := by
  induction bs with
  | nil => simp [findBucket] at h
  | cons e rest ih =>
    obtain ⟨a, b⟩ := e
    rw [keysOK, List.map_cons, List.nodup_cons] at hk
    by_cases he : a = k
    · subst he
      simp [findBucket] at h
      have hstep : setBucket ((a, b) :: rest) a (pool ++ [x]) =
          (a, pool ++ [x]) :: rest := by
        show (if a = a then ((a : Nat), pool ++ [x]) else (a, b)) ::
          setBucket rest a (pool ++ [x]) = _
        rw [if_pos rfl, setBucket_not_mem hk.1]
      rw [hstep]
      simp only [surfB_cons]
      rw [h, List.append_assoc]
      exact List.perm_middle
    · have hstep : setBucket ((a, b) :: rest) k (pool ++ [x]) =
          (a, b) :: setBucket rest k (pool ++ [x]) := by
        show (if a = k then ((k : Nat), pool ++ [x]) else (a, b)) ::
          setBucket rest k (pool ++ [x]) = _
        rw [if_neg he]
      simp only [findBucket, if_neg he] at h
      rw [hstep]
      simp only [surfB_cons]
      exact ((ih hk.2 h).append_left b).trans List.perm_middle

theorem bucketPush_surfB {bs : List (Nat × List Surface)} (hk : keysOK bs) (s : Surface) :
    List.Perm (surfB (bucketPush bs s)) (s :: surfB bs) := by
  unfold bucketPush
  cases h : findBucket s.lines bs with
  | some l => exact surfB_setBucket hk h s
  | none =>
    have : surfB (bs ++ [(s.lines, [s])]) = surfB bs ++ [s] := by
      simp [surfB]
    rw [this]
    exact List.perm_append_singleton s (surfB bs)

theorem bucketPush_keys {bs : List (Nat × List Surface)} (hk : keysOK bs) (s : Surface) :
    keysOK (bucketPush bs s) := by
  unfold bucketPush
  cases h : findBucket s.lines bs with
  | some l =>
    rw [keysOK, setBucket_map_fst]
    exact hk
  | none =>
    rw [keysOK, List.map_append, List.nodup_append]
    exact ⟨hk, by simp, by simpa using findBucket_none h⟩

theorem setBucket_linesOK {bs : List (Nat × List Surface)} {k : Nat} {l : List Surface}
    (hb : linesOK bs) (hl : ∀ s ∈ l, s.lines = k) : linesOK (setBucket bs k l) := by
  intro p hp s hs
  unfold setBucket at hp
  obtain ⟨e, he, rfl⟩ := List.mem_map.mp hp
  by_cases he1 : e.1 = k
  · rw [if_pos he1] at hs ⊢
    exact hl s hs
  · rw [if_neg he1] at hs ⊢
    exact hb e he s hs

theorem bucketPush_linesOK {bs : List (Nat × List Surface)} (hb : linesOK bs) (s : Surface) :
    linesOK (bucketPush bs s) := by
  unfold bucketPush
  cases h : findBucket s.lines bs with
  | some l =>
    apply setBucket_linesOK hb
    intro x hx
    rcases List.mem_append.mp hx with hx | hx
    · exact hb _ (findBucket_mem h) x hx
    · rw [List.mem_singleton.mp hx]
  | none =>
    intro p hp x hx
    rcases List.mem_append.mp hp with hp | hp
    · exact hb p hp x hx
    · rw [List.mem_singleton.mp hp] at hx ⊢
      rw [List.mem_singleton.mp hx]

theorem foldl_bucketPush_keys :
    ∀ (ss : List Surface) (bs : List (Nat × List Surface)), keysOK bs →
      keysOK (ss.foldl bucketPush bs)
  | [], _, hk => hk
  | s :: ss, bs, hk => foldl_bucketPush_keys ss (bucketPush bs s) (bucketPush_keys hk s)

theorem foldl_bucketPush_linesOK :
    ∀ (ss : List Surface) (bs : List (Nat × List Surface)), keysOK bs → linesOK bs →
      linesOK (ss.foldl bucketPush bs)
  | [], _, _, hb => hb
  | s :: ss, bs, hk, hb =>
    foldl_bucketPush_linesOK ss (bucketPush bs s) (bucketPush_keys hk s)
      (bucketPush_linesOK hb s)

theorem foldl_bucketPush_surfB :
    ∀ (ss : List Surface) (bs : List (Nat × List Surface)), keysOK bs →
      List.Perm (surfB (ss.foldl bucketPush bs)) (surfB bs ++ ss) := by
  intro ss
  induction ss with
  | nil => intro bs _; simp
  | cons s ss ih =>
    intro bs hk
    have h1 : List.Perm (surfB ((s :: ss).foldl bucketPush bs))
        (surfB (bucketPush bs s) ++ ss) := by
      exact ih (bucketPush bs s) (bucketPush_keys hk s)
    have h2 : List.Perm (surfB (bucketPush bs s) ++ ss) ((s :: surfB bs) ++ ss) :=
      (bucketPush_surfB hk s).append_right ss
    have h3 : List.Perm ((s :: surfB bs) ++ ss) (surfB bs ++ s :: ss) := by
      rw [List.cons_append]
      exact List.perm_middle.symm
    exact (h1.trans h2).trans h3

theorem mem_allSurf_of_bucket {st : PoolState} {k : Nat} {pool : List Surface} {s : Surface}
    (hfb : findBucket k st.buckets = some pool) (hm : s ∈ pool) : s ∈ allSurf st := by
  rw [allSurf]
  exact List.mem_flatten.mpr ⟨pool, List.mem_map_of_mem Prod.snd (findBucket_mem hfb), hm⟩

theorem flatten_filter_length (p : Surface → Bool) (ls : List (List Surface)) :
    ((ls.flatten).filter p).length = (ls.map fun l => (l.filter p).length).sum := by
  induction ls with
  | nil => rfl
  | cons l ls ih =>
    simp only [List.flatten_cons, List.filter_append, List.length_append, ih, List.map_cons,
      List.sum_cons]

theorem filter_length_partition (p : Surface → Bool) (l : List Surface) :
    (l.filter p).length + (l.filter fun a => !(p a)).length = l.length := by
  induction l with
  | nil => rfl
  | cons a l ih =>
    by_cases h : p a <;> simp [List.filter_cons, h] <;> omega

theorem length_filter_mem {U A : List Surface} (hU : U.Nodup) (hA : A.Nodup)
    (hsub : ∀ s ∈ U, s ∈ A) :
    (A.filter fun s => decide (s ∈ U)).length = U.length := by
  have h1 : (A.filter fun s => decide (s ∈ U)).Nodup := hA.filter _
  have h2 : ∀ a, a ∈ A.filter (fun s => decide (s ∈ U)) ↔ a ∈ U := by
    intro a
    simp only [List.mem_filter, decide_eq_true_eq]
    exact ⟨fun h => h.2, fun h => ⟨hsub a h, h⟩⟩
  exact ((List.perm_ext_iff_of_nodup h1 hU).mpr h2).length_eq

theorem getTotalPoolSize_eq (st : PoolState) :
    getTotalPoolSize st = (allSurf st).length := by
  rw [getTotalPoolSize, allSurf, List.length_flatten, List.map_map]
  rfl

theorem freeCount_eq (st : PoolState) :
    freeCount st = ((allSurf st).filter fun s => decide (s ∉ st.inUse)).length := by
  rw [freeCount, allSurf, flatten_filter_length, List.map_map]
  rfl

theorem count_equation {st : PoolState} (h : WF st) :
    getTotalActiveTextures st + freeCount st = getTotalPoolSize st := by
  obtain ⟨hU, hA, hsub, -, -, -⟩ := h
  rw [getTotalPoolSize_eq, freeCount_eq, getTotalActiveTextures]
  have hpart := filter_length_partition (fun s => decide (s ∈ st.inUse)) (allSurf st)
  have hmem := length_filter_mem hU hA hsub
  have hneg : (allSurf st).filter (fun s => decide (s ∉ st.inUse)) =
      (allSurf st).filter (fun s => !(decide (s ∈ st.inUse))) := by
    apply List.filter_congr
    intro a _
    simp [decide_not]
  rw [hneg]
  omega

theorem WF_release {st : PoolState} (h : WF st) (s? : Option Surface) :
    WF (release st s?) := by
  cases s? with
  | none => exact h
  | some s =>
    obtain ⟨hU, hA, hsub, hk, hl, hid⟩ := h
    exact ⟨hU.filter _, hA, fun x hx => hsub x (List.mem_of_mem_filter hx), hk, hl, hid⟩

theorem WF_cleanup {st : PoolState} (h : WF st) : WF (cleanup st) := by
  obtain ⟨hU, hA, hsub, hk, hl, hid⟩ := h
  have hkeys0 : keysOK ([] : List (Nat × List Surface)) := by simp [keysOK]
  have hperm : List.Perm (allSurf (cleanup st)) st.inUse := by
    have := foldl_bucketPush_surfB st.inUse [] hkeys0
    simpa [cleanup, allSurf_def, surfB] using this
  refine ⟨hU, hperm.nodup_iff.mpr hU, ?_, ?_, ?_, ?_⟩
  · intro x hx
    exact hperm.mem_iff.mpr hx
  · exact foldl_bucketPush_keys _ _ hkeys0
  · exact foldl_bucketPush_linesOK _ _ hkeys0 (by intro p hp; simp at hp)
  · intro x hx
    exact hid x (hsub x (hperm.mem_iff.mp hx))

theorem WF_reuse {st : PoolState} {pool : List Surface} {s0 : Surface} {lines : Nat}
    (h : WF st) (hfb : findBucket lines st.buckets = some pool)
    (hmem : s0 ∈ pool) (hnotin : s0 ∉ st.inUse) :
    WF { st with inUse := setAdd st.inUse s0 } := by
  obtain ⟨hU, hA, hsub, hk, hl, hid⟩ := h
  have hadd : setAdd st.inUse s0 = st.inUse ++ [s0] := if_neg hnotin
  refine ⟨?_, hA, ?_, hk, hl, hid⟩
  · rw [hadd]
    exact hU.append (List.nodup_singleton s0) (List.disjoint_singleton.mpr hnotin)
  · intro x hx
    rw [hadd] at hx
    rcases List.mem_append.mp hx with hx | hx
    · exact hsub x hx
    · rw [List.mem_singleton.mp hx]
      exact mem_allSurf_of_bucket hfb hmem

theorem WF_fresh {st : PoolState} {pool : List Surface} {lines : Nat}
    (h : WF st) (hfb : findBucket lines st.buckets = some pool) :
    WF { buckets := setBucket st.buckets lines (pool ++ [⟨st.nextId, lines⟩])
         inUse := setAdd st.inUse ⟨st.nextId, lines⟩
         nextId := st.nextId + 1 } := by
  obtain ⟨hU, hA, hsub, hk, hl, hid⟩ := h
  set snew : Surface := ⟨st.nextId, lines⟩ with hsnew
  have hfresh : snew ∉ allSurf st := by
    intro hmem
    exact absurd (hid _ hmem) (lt_irrefl st.nextId)
  have hnotin : snew ∉ st.inUse := fun hmem => hfresh (hsub _ hmem)
  have hadd : setAdd st.inUse snew = st.inUse ++ [snew] := if_neg hnotin
  have hperm : List.Perm
      (surfB (setBucket st.buckets lines (pool ++ [snew]))) (snew :: allSurf st) :=
    surfB_setBucket hk hfb snew
  refine ⟨?_, ?_, ?_, ?_, ?_, ?_⟩
  · rw [hadd]
    exact hU.append (List.nodup_singleton snew) (List.disjoint_singleton.mpr hnotin)
  · exact hperm.nodup_iff.mpr (List.nodup_cons.mpr ⟨hfresh, hA⟩)
  · intro x hx
    rw [hadd] at hx
    apply hperm.mem_iff.mpr
    rcases List.mem_append.mp hx with hx | hx
    · exact List.mem_cons_of_mem _ (hsub x hx)
    · rw [List.mem_singleton.mp hx]
      exact List.mem_cons.mpr (Or.inl rfl)
  · rw [keysOK, setBucket_map_fst]
    exact hk
  · apply setBucket_linesOK hl
    intro x hx
    rcases List.mem_append.mp hx with hx | hx
    · exact hl _ (findBucket_mem hfb) x hx
    · rw [List.mem_singleton.mp hx]
  · intro x hx
    rcases List.mem_cons.mp (hperm.mem_iff.mp hx) with hx | hx
    · rw [hx]
      exact Nat.lt_succ_self st.nextId
    · exact Nat.lt_succ_of_lt (hid x hx)

theorem WF_acquire_ok {st : PoolState} {lines : Nat} {s : Surface} {st' : PoolState}
    (h : WF st) (hacq : acquire st lines = .ok (s, st')) : WF st' := by
  unfold acquire at hacq
  split at hacq
  · exact Except.noConfusion hacq
  · split at hacq
    · exact Except.noConfusion hacq
    · rename_i pool hfb
      split at hacq
      · rename_i s0 hfind
        have hpred := List.find?_some hfind
        have hmem := List.mem_of_find?_eq_some hfind
        have hnotin : s0 ∉ st.inUse := by simpa using hpred
        have hst' : st' = { st with inUse := setAdd st.inUse s0 } := by
          injection hacq with h1
          injection h1 with h1 h2
          exact h2.symm
        rw [hst']
        exact WF_reuse h hfb hmem hnotin
      · rename_i hfind
        have hst' : st' =
            { buckets := setBucket st.buckets lines (pool ++ [⟨st.nextId, lines⟩])
              inUse := setAdd st.inUse ⟨st.nextId, lines⟩
              nextId := st.nextId + 1 } := by
          injection hacq with h1
          injection h1 with h1 h2
          exact h2.symm
        rw [hst']
        exact WF_fresh h hfb

theorem WF_runOp {st : PoolState} (h : WF st) (op : PoolOp) : WF (runOp st op) := by
  cases op with
  | acquireOp lines =>
    rw [runOp]
    cases hacq : acquire st lines with
    | ok p => exact WF_acquire_ok h (by rw [hacq])
    | error e => exact h
  | releaseOp s? => exact WF_release h s?
  | cleanupOp => exact WF_cleanup h

theorem WF_runOps {st : PoolState} (h : WF st) (ops : List PoolOp) :
    WF (runOps st ops) := by
  induction ops generalizing st with
  | nil => exact h
  | cons op ops ih => exact ih (WF_runOp h op)

theorem WF_initState : WF initState := by
  unfold WF keysOK linesOK
  decide

/-- C1: pool exclusivity.  For every sequence of acquire/release/cleanup
calls on the pool, no surface is ever simultaneously free and in use:
the in-use set stays inside the union of the bucket lists, and after
every operation `getTotalActiveTextures` plus the number of free
surfaces (bucket members not in use, summed over buckets) equals
`getTotalPoolSize`. -/
theorem pool_exclusivity (ops : List PoolOp) :
    exclusivityOK (runOps initState ops) := by
  have hwf := WF_runOps WF_initState ops
  obtain ⟨hU, hA, hsub, hk, hl, hid⟩ := hwf
  refine ⟨hsub, ?_, count_equation ⟨hU, hA, hsub, hk, hl, hid⟩⟩
  intro s hs hmem
  have hdec := (List.mem_filter.mp hmem).2
  simp only [decide_eq_true_eq] at hdec
  exact hdec hs

/-- C6: reuse before allocation.  If the bucket for an in-range line
count holds a surface that is not in use, `acquire` returns one of
those existing surfaces and allocates nothing: the bucket map and the
fresh-identity counter are unchanged. -/
theorem acquire_reuses_free_surface {st : PoolState} {k : Nat} {pool : List Surface}
    (hk1 : MIN_LINES ≤ k) (hk2 : k ≤ MAX_LINES)
    (hfb : findBucket k st.buckets = some pool)
    (hfree : ∃ x ∈ pool, x ∉ st.inUse) :
    ∃ s st', acquire st k = .ok (s, st') ∧ s ∈ pool ∧ s ∉ st.inUse ∧
      st'.buckets = st.buckets ∧ st'.nextId = st.nextId := by
  have hr : ¬(k < MIN_LINES ∨ k > MAX_LINES) := by omega
  cases hfind : pool.find? (fun x => decide (x ∉ st.inUse)) with
  | none =>
    obtain ⟨x, hx, hxn⟩ := hfree
    have hall := List.find?_eq_none.mp hfind x hx
    simp only [decide_eq_true_eq, Decidable.not_not] at hall
    exact absurd hall hxn
  | some s0 =>
    refine ⟨s0, { st with inUse := setAdd st.inUse s0 }, ?_,
      List.mem_of_find?_eq_some hfind, by simpa using List.find?_some hfind, rfl, rfl⟩
    unfold acquire
    rw [if_neg hr, hfb]
    dsimp only
    rw [hfind]

/-- Witness for C6: on the freshly constructed pool, bucket 3 holds the
free surface with identity 2, and acquiring 3 lines reuses it. -/
theorem acquire_reuses_free_surface_witness :
    ∃ s st', acquire initState 3 = .ok (s, st') ∧ s ∈ [(⟨2, 3⟩ : Surface)] ∧
      s ∉ initState.inUse ∧ st'.buckets = initState.buckets ∧
      st'.nextId = initState.nextId :=
  acquire_reuses_free_surface (by decide) (by decide) (by decide) (by decide)

/-- C7: bounded acquisition on the freshly constructed pool.  `acquire n`
succeeds exactly when `MIN_LINES ≤ n ≤ MAX_LINES`; outside that range it
fails with the out-of-range error and leaves the state unchanged; inside
it the returned surface has bucket capacity `n`. -/
theorem bounded_acquisition (n : Nat) :
    (acquireOk (acquire initState n) = true ↔ (MIN_LINES ≤ n ∧ n ≤ MAX_LINES)) ∧
    ((n < MIN_LINES ∨ MAX_LINES < n) →
      errOf (acquire initState n) = some .outOfRange ∧
      runOp initState (.acquireOp n) = initState) ∧
    ((MIN_LINES ≤ n ∧ n ≤ MAX_LINES) → linesOfAcquire (acquire initState n) = n) := by
  by_cases hin : MIN_LINES ≤ n ∧ n ≤ MAX_LINES
  · obtain ⟨h1, h2⟩ := hin
    rw [MIN_LINES] at h1
    rw [MAX_LINES] at h2
    interval_cases n <;>
      exact ⟨by decide, fun h => absurd h (by decide), fun _ => by decide⟩
  · have hr : n < MIN_LINES ∨ MAX_LINES < n := by
      simp only [MIN_LINES, MAX_LINES] at hin ⊢
      omega
    have herr : acquire initState n = .error .outOfRange := by
      unfold acquire
      rw [if_pos hr]
    refine ⟨?_, fun _ => ⟨by rw [herr]; rfl, by simp [runOp, herr]⟩,
      fun hcon => absurd hcon hin⟩
    constructor
    · intro hok
      rw [herr] at hok
      exact absurd hok (by decide)
    · intro hcon
      exact absurd hcon hin

/-- Witness for C7: `acquire 0` and `acquire 11` raise the out-of-range
error, `acquire 5` returns a 5-line surface. -/
theorem bounded_acquisition_witness :
    errOf (acquire initState 0) = some .outOfRange ∧
    errOf (acquire initState 11) = some .outOfRange ∧
    linesOfAcquire (acquire initState 5) = 5 :=
  ⟨((bounded_acquisition 0).2.1 (by decide)).1,
   ((bounded_acquisition 11).2.1 (by decide)).1,
   (bounded_acquisition 5).2.2 (by decide)⟩

/-- C8: release is total and idempotent.  Releasing an in-use surface
removes it from the in-use set; releasing it again, releasing a surface
that was never acquired, or releasing null leaves the pool state exactly
unchanged, and a double release equals a single release. -/
theorem release_idempotent_total (st : PoolState) (s : Surface) :
    release (release st (some s)) (some s) = release st (some s) ∧
    s ∉ (release st (some s)).inUse ∧
    (s ∉ st.inUse → release st (some s) = st) ∧
    release st none = st := by
  refine ⟨?_, ?_, ?_, rfl⟩
  · have hsd : setDel (setDel st.inUse s) s = setDel st.inUse s :=
      List.filter_eq_self.mpr (fun a ha => (List.mem_filter.mp ha).2)
    show PoolState.mk st.buckets (setDel (setDel st.inUse s) s) st.nextId =
      PoolState.mk st.buckets (setDel st.inUse s) st.nextId
    rw [hsd]
  · intro hmem
    have hda := (List.mem_filter.mp hmem).2
    simp only [decide_eq_true_eq] at hda
    exact hda rfl
  · intro hnot
    have hsd : setDel st.inUse s = st.inUse := by
      apply List.filter_eq_self.mpr
      intro a ha
      simp only [decide_eq_true_eq]
      intro heq
      exact hnot (heq ▸ ha)
    show PoolState.mk st.buckets (setDel st.inUse s) st.nextId = st
    rw [hsd]

/-- Witness for C8: on the fresh pool (empty in-use set), releasing a
never-acquired surface and releasing null both leave the state intact. -/
theorem release_idempotent_total_witness :
    release initState (some ⟨99, 5⟩) = initState ∧ release initState none = initState :=
  ⟨(release_idempotent_total initState ⟨99, 5⟩).2.2.1 (by decide),
   (release_idempotent_total initState ⟨99, 5⟩).2.2.2⟩

theorem wrapLoop_foldl (measure : String → ℚ) (maxWidth : ℚ) :
    ∀ (ws : List String) (cur : String) (acc : List String),
      acc ++ wrapLoop measure maxWidth cur ws =
        (ws.foldl (greedySpecStep measure maxWidth) (acc, cur)).1 ++
          [(ws.foldl (greedySpecStep measure maxWidth) (acc, cur)).2] := by
  intro ws
  induction ws with
  | nil => intro cur acc; rfl
  | cons w ws ih =>
    intro cur acc
    simp only [wrapLoop, List.foldl_cons]
    by_cases hp : measure (cur ++ " " ++ w) < maxWidth
    · rw [if_pos hp]
      have hstep : greedySpecStep measure maxWidth (acc, cur) w =
          (acc, cur ++ " " ++ w) := by
        unfold greedySpecStep
        rw [if_pos hp]
      rw [hstep]
      exact ih (cur ++ " " ++ w) acc
    · rw [if_neg hp]
      have hstep : greedySpecStep measure maxWidth (acc, cur) w =
          (acc ++ [cur], w) := by
        unfold greedySpecStep
        rw [if_neg hp]
      rw [hstep, List.append_cons]
      exact ih w (acc ++ [cur])

theorem wrapText_eq_greedyWrapSpec (measure : String → ℚ) (text : String)
    (maxWidth : ℚ) :
    wrapText measure text maxWidth = greedyWrapSpec measure text maxWidth := by
  unfold wrapText greedyWrapSpec
  cases h : splitSp text with
  | nil => rfl
  | cons w ws =>
    have := wrapLoop_foldl measure maxWidth ws w []
    simpa using this

/-- C4: greedy wrap correctness.  `wrapText` implements exactly the
spec's greedy line-fill rule (for every oracle, input and budget it
agrees with `greedyWrapSpec`, the transcription of the spec's wording),
and with an oracle fitting exactly two tokens per line,
`wrapText "a b c d e"` produces `["a b", "c d", "e"]`. -/
theorem wrapText_greedy :
    (∀ (measure : String → ℚ) (text : String) (maxWidth : ℚ),
      wrapText measure text maxWidth = greedyWrapSpec measure text maxWidth) ∧
    wrapText twoTokenMeasure "a b c d e" 250 = ["a b", "c d", "e"] :=
  ⟨wrapText_eq_greedyWrapSpec, by decide⟩

theorem wrapLoop_length_pos (measure : String → ℚ) (maxWidth : ℚ) :
    ∀ (ws : List String) (cur : String), 1 ≤ (wrapLoop measure maxWidth cur ws).length := by
  intro ws
  induction ws with
  | nil => intro cur; simp [wrapLoop]
  | cons w ws ih =>
    intro cur
    simp only [wrapLoop]
    split
    · exact ih (cur ++ " " ++ w)
    · simp only [List.length_cons]
      omega

theorem acquire_in_range_no_oor {st : PoolState} {n : Nat}
    (h1 : MIN_LINES ≤ n) (h2 : n ≤ MAX_LINES) :
    isOutOfRangeErr (acquire st n) = false := by
  have h1' : 1 ≤ n := h1
  have h2' : n ≤ 10 := h2
  unfold acquire
  rw [if_neg (show ¬(n < MIN_LINES ∨ n > MAX_LINES) by
    simp only [MIN_LINES, MAX_LINES]
    omega)]
  cases hfb : findBucket n st.buckets with
  | none => rfl
  | some pool =>
    dsimp only
    cases hfind : pool.find? (fun x => decide (x ∉ st.inUse)) with
    | none => rfl
    | some s0 => rfl

/-- C10: spawn-path acquire safety.  For every oracle, input text and
width budget, the wrapped line list is nonempty (even for the empty
string) and its truncation has between `MIN_LINES` and `MAX_LINES`
entries, so the line count handed to the pool in `createMessage` can
never hit `acquire`'s out-of-range branch, whatever the pool state. -/
theorem spawn_acquire_safe (measure : String → ℚ) (text : String) (maxWidth : ℚ)
    (st : PoolState) :
    1 ≤ (wrapText measure text maxWidth).length ∧
    MIN_LINES ≤ (truncateLines (wrapText measure text maxWidth)).length ∧
    (truncateLines (wrapText measure text maxWidth)).length ≤ MAX_LINES ∧
    isOutOfRangeErr
      (acquire st (truncateLines (wrapText measure text maxWidth)).length) = false := by
  have h1 : 1 ≤ (wrapText measure text maxWidth).length :=
    wrapLoop_length_pos measure maxWidth _ _
  have htr : 1 ≤ (truncateLines (wrapText measure text maxWidth)).length ∧
      (truncateLines (wrapText measure text maxWidth)).length ≤ 10 := by
    unfold truncateLines
    split
    · rename_i hgt
      simp only [List.length_take]
      omega
    · rename_i hle
      constructor
      · exact h1
      · omega
  exact ⟨h1, htr.1, htr.2, acquire_in_range_no_oor htr.1 htr.2⟩

theorem advancePass_live_le {globalSpeed dt : ℚ} :
    ∀ (msgs : List Msg) (pool : PoolState) (x : Msg),
      x ∈ (advancePass globalSpeed dt msgs pool).1 → ¬x.z > EXIT_Z := by
  intro msgs
  induction msgs with
  | nil => intro pool x hx; simp [advancePass] at hx
  | cons m rest ih =>
    intro pool x hx
    rw [advancePass, List.foldr_cons] at hx
    by_cases hz : (advanceMsg globalSpeed dt m).z > EXIT_Z
    · rw [if_pos hz] at hx
      exact ih pool x hx
    · rw [if_neg hz] at hx
      rcases List.mem_cons.mp hx with hx | hx
      · rw [hx]
        exact hz
      · exact ih pool x hx

theorem release_preserves_not_mem {st : PoolState} {x : Surface} (s? : Option Surface)
    (h : x ∉ st.inUse) : x ∉ (release st s?).inUse := by
  cases s? with
  | none => exact h
  | some s =>
    intro hmem
    exact h (List.mem_of_mem_filter hmem)

theorem advancePass_exited {globalSpeed dt : ℚ} :
    ∀ (msgs : List Msg) (pool : PoolState) (m : Msg), m ∈ msgs →
      (advanceMsg globalSpeed dt m).z > EXIT_Z →
      (advanceMsg globalSpeed dt m) ∈ (advancePass globalSpeed dt msgs pool).2.2 ∧
      (advanceMsg globalSpeed dt m).surface ∉
        (advancePass globalSpeed dt msgs pool).2.1.inUse := by
  intro msgs
  induction msgs with
  | nil => intro pool m hm; simp at hm
  | cons m0 rest ih =>
    intro pool m hm hz
    rw [advancePass, List.foldr_cons]
    rcases List.mem_cons.mp hm with hm | hm
    · subst hm
      rw [if_pos hz]
      constructor
      · exact List.mem_cons.mpr (Or.inl rfl)
      · intro hmem
        have hda := (List.mem_filter.mp hmem).2
        simp only [decide_eq_true_eq] at hda
        exact hda rfl
    · have ihm := ih pool m hm hz
      by_cases hz0 : (advanceMsg globalSpeed dt m0).z > EXIT_Z
      · rw [if_pos hz0]
        exact ⟨List.mem_cons_of_mem _ ihm.1,
          release_preserves_not_mem _ ihm.2⟩
      · rw [if_neg hz0]
        exact ihm

theorem advancePass_kept {globalSpeed dt : ℚ} :
    ∀ (msgs : List Msg) (pool : PoolState) (m : Msg), m ∈ msgs →
      ¬(advanceMsg globalSpeed dt m).z > EXIT_Z →
      (advanceMsg globalSpeed dt m) ∈ (advancePass globalSpeed dt msgs pool).1 := by
  intro msgs
  induction msgs with
  | nil => intro pool m hm; simp at hm
  | cons m0 rest ih =>
    intro pool m hm hz
    rw [advancePass, List.foldr_cons]
    rcases List.mem_cons.mp hm with hm | hm
    · subst hm
      rw [if_neg hz]
      exact List.mem_cons.mpr (Or.inl rfl)
    · have ihm := ih pool m hm hz
      by_cases hz0 : (advanceMsg globalSpeed dt m0).z > EXIT_Z
      · rw [if_pos hz0]
        exact ihm
      · rw [if_neg hz0]
        exact List.mem_cons_of_mem _ ihm

/-- C2: exit reclamation.  In one advance pass, every live message whose
advanced `position.z` exceeds the threshold 10 ends up in the disposed
list, is gone from the live list, and its surface is no longer in the
pool's in-use set (so it is free again); every message whose advanced
`z` stays at or below 10 is kept in the live list. -/
theorem exit_reclamation (globalSpeed dt : ℚ) (msgs : List Msg) (pool : PoolState)
    (m : Msg) (hm : m ∈ msgs) :
    ((advanceMsg globalSpeed dt m).z > EXIT_Z →
      (advanceMsg globalSpeed dt m) ∈ (advancePass globalSpeed dt msgs pool).2.2 ∧
      (advanceMsg globalSpeed dt m) ∉ (advancePass globalSpeed dt msgs pool).1 ∧
      (advanceMsg globalSpeed dt m).surface ∉
        (advancePass globalSpeed dt msgs pool).2.1.inUse) ∧
    (¬(advanceMsg globalSpeed dt m).z > EXIT_Z →
      (advanceMsg globalSpeed dt m) ∈ (advancePass globalSpeed dt msgs pool).1) := by
  constructor
  · intro hz
    obtain ⟨h1, h2⟩ := advancePass_exited msgs pool m hm hz
    exact ⟨h1, fun hlive => advancePass_live_le msgs pool _ hlive hz, h2⟩
  · intro hz
    exact advancePass_kept msgs pool m hm hz

theorem advancePass_mem_live {globalSpeed dt : ℚ} :
    ∀ (msgs : List Msg) (pool : PoolState) (x : Msg),
      x ∈ (advancePass globalSpeed dt msgs pool).1 →
      ∃ m ∈ msgs, x = advanceMsg globalSpeed dt m := by
  intro msgs
  induction msgs with
  | nil => intro pool x hx; simp [advancePass] at hx
  | cons m0 rest ih =>
    intro pool x hx
    rw [advancePass, List.foldr_cons] at hx
    by_cases hz : (advanceMsg globalSpeed dt m0).z > EXIT_Z
    · rw [if_pos hz] at hx
      obtain ⟨m, hm, hxm⟩ := ih pool x hx
      exact ⟨m, List.mem_cons_of_mem _ hm, hxm⟩
    · rw [if_neg hz] at hx
      rcases List.mem_cons.mp hx with hx | hx
      · exact ⟨m0, List.mem_cons.mpr (Or.inl rfl), hx⟩
      · obtain ⟨m, hm, hxm⟩ := ih pool x hx
        exact ⟨m, List.mem_cons_of_mem _ hm, hxm⟩

theorem advanceMsg_special (globalSpeed dt : ℚ) (m : Msg) :
    (advanceMsg globalSpeed dt m).special = m.special := rfl

theorem advanceMsg_arbitraryOrder (globalSpeed dt : ℚ) (m : Msg) :
    (advanceMsg globalSpeed dt m).arbitraryOrder = m.arbitraryOrder := rfl

theorem advanceMsg_renderOrder (globalSpeed dt : ℚ) (m : Msg) :
    (advanceMsg globalSpeed dt m).renderOrder =
      if m.special then (advanceMsg globalSpeed dt m).z + 10000
      else m.arbitraryOrder := rfl

/-- C5: draw-order dynamics.  After an advance step, every message still
live is the advanced image of a spawn-time message with its spawn-time
`arbitraryOrder` and `special` flag intact; a non-special live object's
draw order equals its spawn-time key, and a special (focal) object's
draw order equals its current `position.z + 10000`. -/
theorem draw_order_dynamics (globalSpeed dt : ℚ) (msgs : List Msg) (pool : PoolState)
    (x : Msg) (hx : x ∈ (advancePass globalSpeed dt msgs pool).1) :
    (∃ m ∈ msgs, x = advanceMsg globalSpeed dt m ∧
      x.arbitraryOrder = m.arbitraryOrder ∧ x.special = m.special) ∧
    (x.special = true → x.renderOrder = x.z + 10000) ∧
    (x.special = false → x.renderOrder = x.arbitraryOrder) := by
  obtain ⟨m, hm, rfl⟩ := advancePass_mem_live msgs pool x hx
  refine ⟨⟨m, hm, rfl, rfl, rfl⟩, ?_, ?_⟩
  · intro hsp
    rw [advanceMsg_special] at hsp
    rw [advanceMsg_renderOrder, if_pos (by rw [hsp] : m.special = true)]
  · intro hsp
    rw [advanceMsg_special] at hsp
    rw [advanceMsg_renderOrder, if_neg (by rw [hsp]; exact Bool.false_ne_true :
      ¬m.special = true), advanceMsg_arbitraryOrder]

theorem msgExit_exits : (advanceMsg 1 1 msgExit).z > EXIT_Z := by
  show (0 : ℚ) + 100 * 1 * 1 * 1 > 10
  norm_num

theorem msgStay_stays : ¬(advanceMsg 1 1 msgStay).z > EXIT_Z := by
  show ¬((0 : ℚ) + 100 * 0 * 1 * 1 > 10)
  norm_num

theorem advancePass_stay_eval :
    (advancePass 1 1 [msgStay] poolExit).1 = [advanceMsg 1 1 msgStay] := by
  rw [advancePass, List.foldr_cons, List.foldr_nil, if_neg msgStay_stays]

/-- Witness for C2: the exiting message is disposed, leaves the live
list, and its surface leaves the in-use set. -/
theorem exit_reclamation_witness :
    (advanceMsg 1 1 msgExit) ∈ (advancePass 1 1 [msgExit] poolExit).2.2 ∧
    (advanceMsg 1 1 msgExit) ∉ (advancePass 1 1 [msgExit] poolExit).1 ∧
    (advanceMsg 1 1 msgExit).surface ∉ (advancePass 1 1 [msgExit] poolExit).2.1.inUse :=
  (exit_reclamation 1 1 [msgExit] poolExit msgExit
    (List.mem_cons.mpr (Or.inl rfl))).1 msgExit_exits

/-- Witness for C5: after one advance step the live focal message's draw
order equals its current `z + 10000`. -/
theorem draw_order_dynamics_witness :
    (advanceMsg 1 1 msgStay).renderOrder = (advanceMsg 1 1 msgStay).z + 10000 :=
  (draw_order_dynamics 1 1 [msgStay] poolExit (advanceMsg 1 1 msgStay)
    (advancePass_stay_eval ▸ List.mem_cons.mpr (Or.inl rfl))).2.1 rfl

/-- C3 counterexample: in the webpack variant's `createMessage` (one of
the claim's two cited code sites), a placement draw landing in the focal
band (`floor(r1 * 4.04) = 4 > 3`) is nonetheless dropped with
`discardFrac = 1 ∈ [0,1]` and discard draw `r2 = 0`: the discard filter
runs before the focal remap, so the claim as stated fails there. -/
theorem focal_discard_counterexample :
    (3 : ℤ) < ⌊(100 / 101 : ℚ) * 4.04⌋ ∧ (0 : ℚ) ≤ 1 ∧ (1 : ℚ) ≤ 1 ∧
    createMsgDropPack 1 (100 / 101) 0 = true := by
  have hprod : (100 / 101 : ℚ) * 4.04 = 4 := by norm_num
  have hfl : ⌊(100 / 101 : ℚ) * 4.04⌋ = 4 := by
    rw [hprod]
    simp
  refine ⟨by rw [hfl]; decide, by norm_num, le_refl 1, ?_⟩
  show decide ((⌊(100 / 101 : ℚ) * 4.04⌋ : ℤ) ≠ -1 ∧ (1 : ℚ) ≠ 0 ∧ (0 : ℚ) < 1) = true
  rw [decide_eq_true_eq]
  refine ⟨by rw [hfl]; decide, one_ne_zero, by norm_num⟩

/-- C3 amended: in the my-react-app `createMessage` a focal placement
draw (`floor > 3`, remapped to `-1`) is never dropped by the discard
filter, for every `discardFraction`; in the webpack variant the discard
check precedes the focal remap, so a focal-band draw is discard-eligible
exactly like a wall draw. -/
theorem focal_discard_amended :
    (∀ (sf df r1 r2 : ℚ), 3 < ⌊r1 * (4 + 1 * sf)⌋ →
      createMsgDropApp sf df r1 r2 = false) ∧
    (∀ (df r1 r2 : ℚ), 3 < ⌊r1 * 4.04⌋ → df ≠ 0 → r2 < df →
      createMsgDropPack df r1 r2 = true) := by
  constructor
  · intro sf df r1 r2 hf
    show decide ((if (⌊r1 * (4 + 1 * sf)⌋ : ℤ) > 3 then (-1 : ℤ)
      else ⌊r1 * (4 + 1 * sf)⌋) ≠ -1 ∧ df > 0 ∧ r2 < df) = false
    rw [if_pos hf]
    simp
  · intro df r1 r2 hf hdf hr
    show decide ((⌊r1 * 4.04⌋ : ℤ) ≠ -1 ∧ df ≠ 0 ∧ r2 < df) = true
    rw [decide_eq_true_eq]
    refine ⟨?_, hdf, hr⟩
    intro heq
    rw [heq] at hf
    exact absurd hf (by decide)

theorem floor_pack_helper : (3 : ℤ) < ⌊(100 / 101 : ℚ) * 4.04⌋ := by
  have hprod : (100 / 101 : ℚ) * 4.04 = 4 := by norm_num
  rw [hprod]
  simp

/-- Witness for the amended C3: a focal draw survives every filter in
the my-react-app variant, and is dropped in the webpack variant. -/
theorem focal_discard_amended_witness :
    createMsgDropApp 0 1 1 0 = false ∧ createMsgDropPack 1 (100 / 101) 0 = true :=
  ⟨focal_discard_amended.1 0 1 1 0 (by simp),
   focal_discard_amended.2 1 (100 / 101) 0 floor_pack_helper one_ne_zero (by simp)⟩

/-- C9 counterexample: at draws `rFocal = 0`, `rWall = 0` (both in
`[0,1)`), the focal speed 0.045 is strictly below the wall speed 0.05 —
so a focal message is not always faster — and the focal band's width
(0.06) exceeds the wall band's (0.005), so the focal band is the wider
one, not the narrower. -/
theorem focal_speed_counterexample :
    (0 : ℚ) ≤ 0 ∧ (0 : ℚ) < 1 ∧ focalSpeed 0 < wallSpeed 0 ∧
    focalSpeed 1 - focalSpeed 0 > wallSpeed 1 - wallSpeed 0 := by
  refine ⟨le_refl 0, by norm_num, ?_, ?_⟩ <;>
    · unfold focalSpeed wallSpeed
      norm_num

/-- C9 amended: for draws in `[0,1)`, focal speeds fill `[0.045, 0.105)`
and wall speeds fill `[0.05, 0.055)`: the bands overlap, a focal message
is faster than a wall message exactly when `0.005 + 0.005*rWall <
0.06*rFocal` (in particular whenever `rFocal ≥ 1/6`), and the focal band
is the wider of the two. -/
theorem focal_speed_amended (rFocal rWall : ℚ) (h1 : 0 ≤ rFocal) (h2 : rFocal < 1)
    (h3 : 0 ≤ rWall) (h4 : rWall < 1) :
    ((0.045 : ℚ) ≤ focalSpeed rFocal ∧ focalSpeed rFocal < 0.105) ∧
    ((0.05 : ℚ) ≤ wallSpeed rWall ∧ wallSpeed rWall < 0.055) ∧
    (wallSpeed rWall < focalSpeed rFocal ↔
      (0.005 : ℚ) + 0.005 * rWall < 0.06 * rFocal) ∧
    ((1 / 6 : ℚ) ≤ rFocal → wallSpeed rWall < focalSpeed rFocal) ∧
    focalSpeed 1 - focalSpeed 0 > wallSpeed 1 - wallSpeed 0 := by
  unfold focalSpeed wallSpeed
  refine ⟨⟨by linarith, by linarith⟩, ⟨by linarith, by linarith⟩, ?_, ?_, by norm_num⟩
  · constructor <;> (intro h; linarith)
  · intro h
    linarith

/-- Witness for the amended C9: the band bounds at draws 0. -/
theorem focal_speed_amended_witness :
    (((0.045 : ℚ) ≤ focalSpeed 0 ∧ focalSpeed 0 < 0.105) ∧
      ((0.05 : ℚ) ≤ wallSpeed 0 ∧ wallSpeed 0 < 0.055)) :=
  ⟨(focal_speed_amended 0 0 (le_refl 0) (by simp) (le_refl 0) (by simp)).1,
   (focal_speed_amended 0 0 (le_refl 0) (by simp) (le_refl 0) (by simp)).2.1⟩
